import Mathlib

/-!
# Verification of the `xdecoder` FasterDecoder core

Shallow embedding of `src/faster-decoder.h` (namespace `xdecoder`):
the token (hypothesis) data model, reference-counted lifecycle, the
active-state index, the cutoff engine, the non-emitting pass, best-path
extraction, incremental decoding, and option handling.

Costs and weights are modelled as rationals (`ℚ`); machine floats and
doubles are treated as exact arithmetic.  State identifiers are integers.
-/

namespace XDecoder

/-- A graph transition, from `fst.h` (fields used by the decoder: input
label, output label, weight, destination state). -/
structure Arc where
  ilabel : ℤ
  olabel : ℤ
  weight : ℚ
  nextstate : ℤ
deriving DecidableEq, Repr

/-- A decoding hypothesis chain, from `FasterDecoder::Token`: each token
records the arc taken, the acoustic cost consumed at this step (`some ac`
for the emitting `Init(arc, ac_cost, prev)`, `none` for the non-emitting
`Init(arc, prev)`), and the predecessor chain (`root` when `prev == NULL`). -/
inductive Token where
  | root (arc : Arc) (acCost : Option ℚ)
  | step (arc : Arc) (acCost : Option ℚ) (prev : Token)
deriving DecidableEq, Repr

namespace Token

/-- The cost contributed by one step: `arc.weight + ac_cost` for an
emitting step, `arc.weight` for a non-emitting step, exactly as the two
`Token::Init` overloads compute it. -/
def stepCost (arc : Arc) : Option ℚ → ℚ
  | some ac => arc.weight + ac
  | none => arc.weight

/-- Cumulative cost `cost_`, from `Token::Init`:
`cost_ = prev->cost_ + arc.weight (+ ac_cost)` when a predecessor exists,
`cost_ = arc.weight (+ ac_cost)` otherwise. -/
def cost : Token → ℚ
  | .root arc ac => stepCost arc ac
  | .step arc ac prev => prev.cost + stepCost arc ac

/-- Emitting token creation, from `Token::Init(const Arc&, float, Token*)`. -/
def initAc (arc : Arc) (ac : ℚ) : Option Token → Token
  | some prev => .step arc (some ac) prev
  | none => .root arc (some ac)

/-- Non-emitting token creation, from `Token::Init(const Arc&, Token*)`. -/
def initNoAc (arc : Arc) : Option Token → Token
  | some prev => .step arc none prev
  | none => .root arc none

/-- The token comparison `Token::operator<`, from the source: `cost_ > other.cost_`. -/
def ltOp (t other : Token) : Bool :=
  decide (t.cost > other.cost)

/-- All graph weights along the chain are non-negative. -/
def weightsNonneg : Token → Bool
  | .root arc _ => decide (0 ≤ arc.weight)
  | .step arc _ prev => decide (0 ≤ arc.weight) && prev.weightsNonneg

/-- All acoustic costs along the chain are non-negative. -/
def acCostsNonneg : Token → Bool
  | .root _ ac => decide (0 ≤ ac.getD 0)
  | .step _ ac prev => decide (0 ≤ ac.getD 0) && prev.acCostsNonneg

/-- Cumulative cost is non-decreasing along the predecessor chain. -/
def chainMonotone : Token → Bool
  | .root _ _ => true
  | .step arc ac prev => decide (prev.cost ≤ (Token.step arc ac prev).cost) && prev.chainMonotone

end Token

/-- Decoder options, from `FasterDecoderOptions` with its default
constructor values (`max_active` defaults to `INT32_MAX`). -/
structure FasterDecoderOptions where
  beam : ℚ
  max_active : ℤ
  min_active : ℤ
  beam_delta : ℚ
  hash_ratio : ℚ
deriving DecidableEq, Repr

/-- The default-constructed `FasterDecoderOptions`. -/
def defaultOptions : FasterDecoderOptions :=
  { beam := 16, max_active := 2147483647, min_active := 20,
    beam_delta := 1/2, hash_ratio := 2 }

/-- The configuration part of the decoder state touched by `SetOptions`. -/
structure DecoderConfigState where
  config : FasterDecoderOptions
deriving DecidableEq, Repr

/-- The option setter `FasterDecoder::SetOptions`, from the source:
`void SetOptions(const FasterDecoderOptions &config) { config_ = config; }` -/
def SetOptions (_d : DecoderConfigState) (c : FasterDecoderOptions) : DecoderConfigState :=
  { config := c }

/-- An invalid configuration: `min_active > max_active`, non-positive
`beam` and non-positive `hash_ratio`. -/
def invalidOptions : FasterDecoderOptions :=
  { beam := -1, max_active := 1, min_active := 5, beam_delta := 1/2, hash_ratio := -2 }

/-- A concrete predecessor token for the C5 counterexample: graph weight
`0`, no acoustic cost, cumulative cost `0`. -/
def cex5prev : Token := .root ⟨0, 0, 0, 0⟩ none

/-- A concrete successor token for the C5 counterexample: graph weight `0`
(non-negative), acoustic cost `-1`, cumulative cost `-1`. -/
def cex5tok : Token := .step ⟨0, 0, 0, 1⟩ (some (-1)) cex5prev

/-! ## Reference-count lifecycle (C4)

`Token::Init` sets `ref_count_ = 1` and does `prev->ref_count_++`;
`Token::TokenDelete` runs `while (--tok->ref_count_ == 0)`, recycling the
record and moving to the predecessor.  A predecessor chain is modelled by
the list of reference counts from the released token back to the root. -/

/-- Token creation's effect on reference counts, from `Token::Init`: the
new record starts with `ref_count_ = 1`, and the predecessor chain's head
(if any) is incremented. -/
def tokenCreate (prev : List ℕ) : List ℕ :=
  match prev with
  | [] => [1]
  | r :: rest => 1 :: (r + 1) :: rest

/-- The release operation `Token::TokenDelete`: decrement the head's reference count; exactly
when it reaches zero, recycle the record to the pool and continue with the
predecessor.  Returns the surviving chain and the number of recycled
records. -/
def tokenDelete : List ℕ → List ℕ × ℕ
  | [] => ([], 0)
  | rc :: rest =>
    if rc - 1 = 0 then
      let r := tokenDelete rest
      (r.1, r.2 + 1)
    else ((rc - 1) :: rest, 0)

/-! ## Active-state index (C2)

`HashList<int32_t, Token*>` as used by the decoder: one generation maps a
graph-state id to the best token reaching it.  An entry is a pair of a
token identity and its cumulative cost; the upsert replaces the stored
entry only on a strictly lower cost (the behaviour the spec ascribes to
the index; `hash-list.h` itself is not part of the excerpt). -/

/-- A stored hypothesis: a token identity together with its cumulative
cost. -/
abbrev TokEntry := ℕ × ℚ

/-- Modelled from the spec: `upsert(state, hypothesis)` of the
Active-State Index (the `HashList` plus the decoder's replace-if-better
use of it, whose implementation is not in the excerpt) — inserts if
absent, otherwise replaces the existing entry's hypothesis only if the new
one's cumulative cost is strictly lower. -/
def upsert : List (ℤ × TokEntry) → ℤ → TokEntry → List (ℤ × TokEntry)
  | [], s, e => [(s, e)]
  | (s', e') :: rest, s, e =>
    if s' = s then (if e.2 < e'.2 then (s, e) else (s', e')) :: rest
    else (s', e') :: upsert rest s e

/-- Lookup of a state's stored entry in one generation of the index. -/
def findTok (s : ℤ) : List (ℤ × TokEntry) → Option TokEntry
  | [] => none
  | (s', e) :: rest => if s' = s then some e else findTok s rest

/-- One generation of the index, built by upserting every candidate of the
frame in order into an initially empty index. -/
def buildIndex (cands : List (ℤ × TokEntry)) : List (ℤ × TokEntry) :=
  cands.foldl (fun idx p => upsert idx p.1 p.2) []

/-- The candidates seen for state `s`, in arrival order. -/
def candsAt (s : ℤ) (cands : List (ℤ × TokEntry)) : List TokEntry :=
  (cands.filter (fun p => decide (p.1 = s))).map Prod.snd

/-! ## Cutoff engine (C1)

`FasterDecoder::GetCutoff` is declared in the excerpt but its body is not;
the algorithm is modelled from the spec (section 4.3). -/

/-- The configuration consumed by the cutoff engine. -/
structure CutCfg where
  beam : ℚ
  max_active : ℕ
  min_active : ℕ
  beam_delta : ℚ
deriving DecidableEq, Repr

/-- The number of candidates admitted by a cutoff: those whose cumulative
cost is at most the cutoff. -/
def admitted (costs : List ℚ) (c : ℚ) : ℕ :=
  costs.countP (fun x => decide (x ≤ c))

/-- The minimum cumulative cost of the candidate list (single scan). -/
def minCost (costs : List ℚ) : ℚ :=
  match costs with
  | [] => 0
  | c :: rest => rest.foldl min c

/-- The maximum cumulative cost of the candidate list (used only to bound
the relaxation loop's step count). -/
def maxCost (costs : List ℚ) : ℚ :=
  match costs with
  | [] => 0
  | c :: rest => rest.foldl max c

/-- Modelled from the spec: the `beamDelta` relaxation loop of the cutoff
engine (`GetCutoff`'s body is not in the excerpt) — widen the cutoff in
`beamDelta` increments until `minActive` candidates are admitted or all
candidates are admitted. -/
def relaxCutoff (costs : List ℚ) (minA : ℕ) (δ : ℚ) : ℕ → ℚ → ℚ
  | 0, c => c
  | n + 1, c =>
    if minA ≤ admitted costs c ∨ admitted costs c = costs.length then c
    else relaxCutoff costs minA δ n (c + δ)

/-- Enough relaxation steps for the loop to reach the costliest candidate. -/
def relaxFuel (costs : List ℚ) (c0 δ : ℚ) : ℕ :=
  ⌈(maxCost costs - c0) / δ⌉.toNat

/-- Modelled from the spec: `GetCutoff` (body not in the excerpt) — scan
for the minimum cost, set the initial cutoff to minimum + beam; if the
admitted count exceeds `maxActive`, tighten the cutoff to the
`maxActive`-th smallest cost (a selection); if the beam admits fewer than
`minActive` candidates while more exist beyond it, relax the cutoff by
`beamDelta` increments until `minActive` is reached or all candidates are
admitted. -/
def getCutoff (costs : List ℚ) (cfg : CutCfg) : ℚ :=
  if cfg.max_active < admitted costs (minCost costs + cfg.beam) then
    (List.insertionSort (· ≤ ·) costs).getD (cfg.max_active - 1) 0
  else if admitted costs (minCost costs + cfg.beam) < cfg.min_active
      ∧ admitted costs (minCost costs + cfg.beam) < costs.length then
    relaxCutoff costs cfg.min_active cfg.beam_delta
      (relaxFuel costs (minCost costs + cfg.beam) cfg.beam_delta)
      (minCost costs + cfg.beam)
  else minCost costs + cfg.beam

/-- The C1 counterexample candidate list: three equal-cost candidates. -/
def cex1costs : List ℚ := [0, 0, 0]

/-- The C1 counterexample configuration: `maxActive = 2`, `minActive = 1`. -/
def cex1cfg : CutCfg := { beam := 16, max_active := 2, min_active := 1, beam_delta := 1/2 }

/-! ## Traceback (C7)

`FasterDecoder::GetBestPath` and `ReachedFinal` are declared in the
excerpt but their bodies are not; they are modelled from the spec
(section 4.6).  An active generation is the drained list of
(state, token) entries of the current frame. -/

/-- The output labels of a hypothesis chain walked backward, from the
selected token to its root (each step contributes its arc's output
label). -/
def Token.backLabels : Token → List ℤ
  | .root a _ => [a.olabel]
  | .step a _ p => a.olabel :: p.backLabels

/-- The output labels of a hypothesis chain in forward time order, root
first. -/
def Token.forwardLabels : Token → List ℤ
  | .root a _ => [a.olabel]
  | .step a _ p => p.forwardLabels ++ [a.olabel]

/-- Modelled from the spec: `reachedFinal()` (the body of
`FasterDecoder::ReachedFinal` is not in the excerpt) — true iff the
current active generation contains a hypothesis whose state is final. -/
def reachedFinal (finalCost : ℤ → Option ℚ) (active : List (ℤ × Token)) : Bool :=
  active.any (fun p => (finalCost p.1).isSome)

/-- Modelled from the spec: `getBestPath(useFinalProbs)` (the body of
`FasterDecoder::GetBestPath` is not in the excerpt) — when
`useFinalProbs` holds and a final state is active, select the active
hypothesis minimizing cumulative cost plus final cost among final states;
otherwise select the one minimizing plain cumulative cost; then walk the
predecessor chain collecting output labels and reverse them into forward
time order.  Returns `none` exactly when there is nothing to select. -/
def getBestPath (finalCost : ℤ → Option ℚ) (active : List (ℤ × Token))
    (useFinal : Bool) : Option (List ℤ) :=
  let cands : List (Token × ℚ) :=
    if useFinal && reachedFinal finalCost active then
      active.filterMap (fun p => (finalCost p.1).map (fun f => (p.2, p.2.cost + f)))
    else
      active.map (fun p => (p.2, p.2.cost))
  (cands.argmin (fun tc => tc.2)).map (fun tc => tc.1.backLabels.reverse)

/-! ## Incremental decoding (C8)

`Decode`, `InitDecoding` and `AdvanceDecoding` are declared in the excerpt
but their bodies are not; the frame loop is modelled from the spec
(sections 4.4, 5 and 6).  The per-frame expansion (`ProcessEmitting`
followed by the non-emitting fixpoint) is an arbitrary function `step`
from an active generation and a frame to the next active generation, and
the decoder state is the pair of the active generation and
`num_frames_decoded_`. -/

/-- Modelled from the spec: `AdvanceDecoding(decodable, max_num_frames)`
(body not in the excerpt) — starting from decoder state `st`, process at
most `k` frames, stopping early when no more frames are ready; each
processed frame advances `num_frames_decoded_` by one. -/
def advanceDecoding {α β : Type} (step : α → β → α) (frames : List β) :
    ℕ → α × ℕ → α × ℕ
  | 0, st => st
  | k + 1, st =>
    match frames[st.2]? with
    | some fr => advanceDecoding step frames k (step st.1 fr, st.2 + 1)
    | none => st

/-- Modelled from the spec: `Decode(decodable)` (body not in the excerpt)
— run from the freshly initialized state to frame exhaustion. -/
def decodeRun {α β : Type} (step : α → β → α) (frames : List β) (init : α) : α × ℕ :=
  advanceDecoding step frames frames.length (init, 0)

/-- Calling `AdvanceDecoding` with `max_num_frames = 1` repeatedly,
`n` times. -/
def advanceByOnes {α β : Type} (step : α → β → α) (frames : List β) :
    ℕ → α × ℕ → α × ℕ
  | 0, st => st
  | n + 1, st => advanceByOnes step frames n (advanceDecoding step frames 1 st)

/-! ## Non-emitting pass (C6)

`FasterDecoder::ProcessNonemitting` is declared in the excerpt but its
body is not; the work-queue relaxation is modelled from the spec
(section 4.5).  States are numbered below `numStates`; the frame-free
arcs are `(source, destination, weight)` triples; `cost` is the
active-state index's stored cost per state for the generation being
populated (`none` when the state has no entry). -/

/-- The frame-free part of the graph together with this frame's cutoff. -/
structure NEGraph where
  numStates : ℕ
  arcs : List (ℕ × ℕ × ℚ)
  cutoff : ℚ

/-- The state of the non-emitting pass: per-state best costs and the
pending work queue. -/
structure NEState where
  cost : ℕ → Option ℚ
  queue : List ℕ

/-- Modelled from the spec: relaxation of one frame-free arc — compute
the destination cost as source cost plus arc weight; if it is within the
cutoff and improves (or newly creates) the destination's entry, store it
and enqueue the destination unless already pending. -/
def relaxArc (cutoff : ℚ) (st : NEState) (a : ℕ × ℕ × ℚ) : NEState :=
  match st.cost a.1 with
  | none => st
  | some cs =>
    if (decide (cs + a.2.2 ≤ cutoff) &&
        (match st.cost a.2.1 with
         | none => true
         | some ct => decide (cs + a.2.2 < ct))) = true then
      { cost := fun v => if v = a.2.1 then some (cs + a.2.2) else st.cost v,
        queue := if a.2.1 ∈ st.queue then st.queue else a.2.1 :: st.queue }
    else st

/-- Modelled from the spec: one iteration of `ProcessNonemitting`'s loop —
dequeue a state and relax each of its outgoing frame-free arcs. -/
def neStep (g : NEGraph) (st : NEState) : NEState :=
  match st.queue with
  | [] => st
  | s :: rest =>
    (g.arcs.filter (fun a => decide (a.1 = s))).foldl (relaxArc g.cutoff)
      { st with queue := rest }

/-- Modelled from the spec: `ProcessNonemitting(cutoff)` (body not in the
excerpt) — iterate the work-queue loop; `fuel` bounds the number of
iterations inspected, and termination means some fuel empties the queue. -/
def neRun (g : NEGraph) : ℕ → NEState → NEState
  | 0, st => st
  | n + 1, st =>
    match st.queue with
    | [] => st
    | _ :: _ => neRun g n (neStep g st)

/-- A rational lies on the grid of multiples of `1 / D`. -/
def IsGrid (D : ℕ) (q : ℚ) : Prop :=
  ∃ k : ℤ, (D : ℚ) * q = (k : ℚ)

/-- Well-formedness of a stored cost: bounded below by `L`, within the
cutoff, and on the `1 / D` grid. -/
def costOK (D : ℕ) (L cutoff : ℚ) (o : Option ℚ) : Prop :=
  ∀ c, o = some c → L ≤ c ∧ c ≤ cutoff ∧ IsGrid D c

/-- Well-formedness of a frame-free arc: endpoints in range, weight
non-negative and on the grid. -/
def arcOK (g : NEGraph) (D : ℕ) (a : ℕ × ℕ × ℚ) : Prop :=
  a.1 < g.numStates ∧ a.2.1 < g.numStates ∧ 0 ≤ a.2.2 ∧ IsGrid D a.2.2

/-- The invariant of the non-emitting pass: all stored costs are
well-formed, the queue has no duplicates, and queued states are in
range. -/
def Inv (g : NEGraph) (D : ℕ) (L : ℚ) (st : NEState) : Prop :=
  (∀ v, v < g.numStates → costOK D L g.cutoff (st.cost v))
  ∧ st.queue.Nodup ∧ (∀ x ∈ st.queue, x < g.numStates)

/-- The rank of a stored cost: its height above the floor of the grid
window; an absent entry ranks above every admissible stored cost. -/
def rank (D : ℕ) (L cutoff : ℚ) : Option ℚ → ℕ
  | none => (⌈(D : ℚ) * cutoff⌉ - ⌊(D : ℚ) * L⌋ + 1).toNat
  | some c => (((D : ℚ) * c).num - ⌊(D : ℚ) * L⌋).toNat

/-- The sum of ranks over all states: strictly decreases whenever some
state's stored cost improves. -/
def sumRank (g : NEGraph) (D : ℕ) (L : ℚ) (st : NEState) : ℕ :=
  (Finset.range g.numStates).sum (fun v => rank D L g.cutoff (st.cost v))

/-- The termination measure of the non-emitting pass: lexicographic in
(sum of ranks, queue length), packed into one natural number using the
queue-length bound `numStates`. -/
def neM (g : NEGraph) (D : ℕ) (L : ℚ) (st : NEState) : ℕ :=
  sumRank g D L st * (g.numStates + 1) + st.queue.length

/-- The common denominator of all arc weights and all initially stored
costs: every cost the pass ever stores is a multiple of `1 / denProd`. -/
def denProd (g : NEGraph) (st : NEState) : ℕ :=
  (g.arcs.map (fun a => a.2.2.den)).prod
    * ((List.range g.numStates).map (fun v =>
        match st.cost v with
        | some c => c.den
        | none => 1)).prod

/-- A lower bound on all initially stored costs. -/
def initLower (g : NEGraph) (st : NEState) : ℚ :=
  minCost ((List.range g.numStates).filterMap (fun v => st.cost v))

/-- The C6 witness graph: two states, one frame-free arc `0 → 1` of
weight `0`, cutoff `10`. -/
def cg6 : NEGraph := { numStates := 2, arcs := [(0, 1, 0)], cutoff := 10 }

/-- The C6 witness start state: state `0` holds cost `0` and is queued. -/
def cst6 : NEState :=
  { cost := fun v => if v = 0 then some 0 else none, queue := [0] }

end XDecoder

namespace XDecoder

/-- C3: a token created with a predecessor has cumulative cost equal to the
predecessor's cost plus the arc's graph weight plus, for an emitting
(frame-consuming) step, the acoustic cost; a token created without a
predecessor has cumulative cost equal to its own transition cost. -/
theorem token_cost_formula (arc : Arc) (ac : ℚ) (p : Token) :
    (Token.initAc arc ac (some p)).cost = p.cost + arc.weight + ac
    ∧ (Token.initAc arc ac none).cost = arc.weight + ac
    ∧ (Token.initNoAc arc (some p)).cost = p.cost + arc.weight
    ∧ (Token.initNoAc arc none).cost = arc.weight := by
  refine ⟨?_, rfl, rfl, rfl⟩
  simp [Token.initAc, Token.cost, Token.stepCost, add_assoc]

/-- C5 counterexample: a chain whose graph weights are all non-negative in
which a token's cumulative cost is strictly below its predecessor's
(the acoustic cost of the step is negative), refuting the claim that
non-negative graph weights alone force monotone cumulative costs. -/
theorem token_monotone_counterexample :
    cex5tok.weightsNonneg = true
    ∧ cex5tok = Token.step ⟨0, 0, 0, 1⟩ (some (-1)) cex5prev
    ∧ cex5tok.cost < cex5prev.cost := by
  refine ⟨rfl, rfl, ?_⟩
  norm_num [cex5tok, cex5prev, Token.cost, Token.stepCost]

/-- C5 (amended): along any chain whose graph weights AND acoustic costs
are all non-negative, cumulative cost is monotonically non-decreasing from
any token back to its root. -/
theorem token_cost_monotone (t : Token)
    (hw : t.weightsNonneg = true) (ha : t.acCostsNonneg = true) :
    t.chainMonotone = true := by
  induction t with
  | root arc ac => rfl
  | step arc ac prev ih =>
    simp only [Token.weightsNonneg, Bool.and_eq_true, decide_eq_true_eq] at hw
    simp only [Token.acCostsNonneg, Bool.and_eq_true, decide_eq_true_eq] at ha
    simp only [Token.chainMonotone, Bool.and_eq_true, decide_eq_true_eq]
    refine ⟨?_, ih hw.2 ha.2⟩
    have hstep : 0 ≤ Token.stepCost arc ac := by
      cases ac with
      | none => simpa [Token.stepCost] using hw.1
      | some a =>
        have : (0:ℚ) ≤ a := by simpa [Option.getD] using ha.1
        have := add_nonneg hw.1 this
        simpa [Token.stepCost] using this
    simp only [Token.cost]
    linarith

/-- Witness for `token_cost_monotone` at a concrete two-token chain. -/
theorem token_cost_monotone_witness :
    ((Token.step ⟨0, 7, 1, 2⟩ (some 2) (Token.root ⟨0, 3, 0, 1⟩ none)).weightsNonneg = true
      ∧ (Token.step ⟨0, 7, 1, 2⟩ (some 2) (Token.root ⟨0, 3, 0, 1⟩ none)).acCostsNonneg = true)
    ∧ (Token.step ⟨0, 7, 1, 2⟩ (some 2) (Token.root ⟨0, 3, 0, 1⟩ none)).chainMonotone = true :=
  ⟨⟨by decide, by decide⟩,
    token_cost_monotone _ (by decide) (by decide)⟩

/-- C10: the token comparison operator is inverted relative to cost:
`t1 < t2` holds exactly when `t1`'s cumulative cost is strictly greater
than `t2`'s, so this ordering ranks higher-cost hypotheses as smaller. -/
theorem token_ltOp_iff (t1 t2 : Token) :
    t1.ltOp t2 = true ↔ t2.cost < t1.cost := by
  simp [Token.ltOp]

/-- C9 counterexample: `SetOptions` installs a configuration with
`min_active > max_active`, non-positive `beam` and non-positive
`hash_ratio` unchanged — no rejection happens at configuration time. -/
theorem setOptions_accepts_invalid :
    (SetOptions ⟨defaultOptions⟩ invalidOptions).config = invalidOptions
    ∧ invalidOptions.max_active < invalidOptions.min_active
    ∧ invalidOptions.beam ≤ 0
    ∧ invalidOptions.hash_ratio ≤ 0 := by
  refine ⟨rfl, by decide, ?_, ?_⟩ <;> norm_num [invalidOptions]

/-- C9 (amended): `SetOptions` stores any given configuration unchanged;
the code performs no validation, so invalid configurations
(`min_active > max_active`, non-positive `beam` or `hash_ratio`) are
accepted rather than rejected. -/
theorem setOptions_stores_unvalidated (d : DecoderConfigState) (c : FasterDecoderOptions) :
    (SetOptions d c).config = c := rfl

/-- C4: token creation returns a record with reference count 1 and
increments the predecessor's count when present; `TokenDelete` decrements
the released record's count and, exactly when it reaches zero, recycles
the record and recurses the decrement on the predecessor, cascading up the
chain: the recycled records are precisely the maximal prefix of the chain
whose counts were 1, and the first survivor keeps its decremented,
still-positive count. -/
theorem token_lifecycle (prev chain : List ℕ) (h : ∀ r ∈ chain, 1 ≤ r) :
    (tokenCreate prev).head? = some 1
    ∧ (match prev with
       | [] => tokenCreate prev = [1]
       | r :: rest => tokenCreate prev = 1 :: (r + 1) :: rest)
    ∧ tokenDelete chain =
        ((match chain.dropWhile (fun r => decide (r = 1)) with
          | [] => []
          | r :: rest => (r - 1) :: rest),
         (chain.takeWhile (fun r => decide (r = 1))).length) := by
  refine ⟨?_, ?_, ?_⟩
  · cases prev <;> rfl
  · cases prev <;> simp [tokenCreate]
  · induction chain with
    | nil => rfl
    | cons rc rest ih =>
      have hrc : 1 ≤ rc := h rc (List.mem_cons_self rc rest)
      have hrest : ∀ r ∈ rest, 1 ≤ r := fun r hr => h r (List.mem_cons_of_mem rc hr)
      by_cases h1 : rc = 1
      · subst h1
        simp only [tokenDelete, List.dropWhile, List.takeWhile, decide_True,
          ih hrest, List.length_cons]
        simp
      · have h2 : rc - 1 ≠ 0 := by omega
        simp only [tokenDelete, List.dropWhile, List.takeWhile, h2,
          decide_eq_true_eq, h1, if_false, decide_False]
        simp

/-- Witness for `token_lifecycle` on the chain `[1, 1, 2]` with
predecessor chain `[3]`: two records are recycled and the third survives
with count 1. -/
theorem token_lifecycle_witness :
    (∀ r ∈ ([1, 1, 2] : List ℕ), 1 ≤ r)
    ∧ ((tokenCreate [3]).head? = some 1
      ∧ (match ([3] : List ℕ) with
         | [] => tokenCreate [3] = [1]
         | r :: rest => tokenCreate [3] = 1 :: (r + 1) :: rest)
      ∧ tokenDelete [1, 1, 2] =
          ((match ([1, 1, 2] : List ℕ).dropWhile (fun r => decide (r = 1)) with
            | [] => []
            | r :: rest => (r - 1) :: rest),
           (([1, 1, 2] : List ℕ).takeWhile (fun r => decide (r = 1))).length)) :=
  ⟨by decide, token_lifecycle [3] [1, 1, 2] (by decide)⟩

/-- The keys of an index after an upsert: unchanged when the state was
present, extended by the new state otherwise. -/
theorem upsert_keys (idx : List (ℤ × TokEntry)) (s : ℤ) (e : TokEntry) :
    (upsert idx s e).map Prod.fst =
      (if s ∈ idx.map Prod.fst then idx.map Prod.fst else idx.map Prod.fst ++ [s]) := by
  induction idx with
  | nil => simp [upsert]
  | cons p rest ih =>
    obtain ⟨s', e'⟩ := p
    by_cases hs : s' = s
    · subst hs
      by_cases hlt : e.2 < e'.2 <;> simp [upsert, hlt]
    · simp only [upsert, if_neg hs, List.map_cons, List.mem_cons]
      rw [ih]
      by_cases hmem : s ∈ rest.map Prod.fst
      · rw [if_pos hmem, if_pos (Or.inr hmem)]
      · have hnot : ¬(s = s' ∨ s ∈ rest.map Prod.fst) := by
          rintro (hc | hc)
          · exact hs hc.symm
          · exact hmem hc
        rw [if_neg hmem, if_neg hnot, List.cons_append]

/-- Upserting preserves key nodup-ness of the index. -/
theorem upsert_nodup (idx : List (ℤ × TokEntry)) (s : ℤ) (e : TokEntry)
    (h : (idx.map Prod.fst).Nodup) : ((upsert idx s e).map Prod.fst).Nodup := by
  rw [upsert_keys]
  by_cases hmem : s ∈ idx.map Prod.fst
  · simpa [hmem] using h
  · simp [hmem, List.nodup_append, h]

/-- Lookup after an upsert keyed at a different state is unchanged. -/
theorem findTok_upsert_ne (idx : List (ℤ × TokEntry)) (s s' : ℤ) (e : TokEntry)
    (hne : s' ≠ s) : findTok s (upsert idx s' e) = findTok s idx := by
  induction idx with
  | nil => simp [upsert, findTok, hne]
  | cons p rest ih =>
    obtain ⟨s₀, e₀⟩ := p
    by_cases h0 : s₀ = s'
    · have h0s : s₀ ≠ s := by rw [h0]; exact hne
      simp only [upsert, if_pos h0]
      by_cases hlt : e.2 < e₀.2
      · rw [if_pos hlt]
        simp [findTok, hne, h0s]
      · rw [if_neg hlt]
    · simp only [upsert, if_neg h0, findTok]
      by_cases h0s : s₀ = s
      · simp [h0s]
      · simp [h0s, ih]

/-- Lookup after an upsert keyed at the same state: inserts when absent,
keeps the cheaper entry otherwise (the stored entry is replaced only by a
strictly cheaper one). -/
theorem findTok_upsert_eq (idx : List (ℤ × TokEntry)) (s : ℤ) (e : TokEntry) :
    findTok s (upsert idx s e) =
      (match findTok s idx with
       | none => some e
       | some cur => if e.2 < cur.2 then some e else some cur) := by
  induction idx with
  | nil => simp [upsert, findTok]
  | cons p rest ih =>
    obtain ⟨s₀, e₀⟩ := p
    by_cases h0 : s₀ = s
    · subst h0
      by_cases hlt : e.2 < e₀.2 <;> simp [upsert, findTok, hlt]
    · simp [upsert, findTok, h0, ih]

/-- C2: one generation of the active-state index built from a frame's
candidate stream holds at most one entry per state (the key list has no
duplicates), and the entry stored for a state is a candidate that is
cheapest among all candidates seen for that state; moreover every earlier
candidate for that state is strictly more expensive than the stored one
(an entry is never replaced by an equal-or-higher-cost hypothesis), and a
state with no candidates has no entry. -/
theorem activeIndex_invariant (cands : List (ℤ × TokEntry)) (s : ℤ) :
    ((buildIndex cands).map Prod.fst).Nodup
    ∧ (match findTok s (buildIndex cands) with
       | none => candsAt s cands = []
       | some e =>
         (∃ pre suf, candsAt s cands = pre ++ e :: suf ∧ ∀ x ∈ pre, e.2 < x.2)
         ∧ ∀ x ∈ candsAt s cands, e.2 ≤ x.2) := by
  induction cands using List.reverseRecOn with
  | nil => exact ⟨by simp [buildIndex], by simp [buildIndex, findTok, candsAt]⟩
  | append_singleton cands p ih =>
    obtain ⟨ihnodup, ihmatch⟩ := ih
    have hbuild : buildIndex (cands ++ [p]) = upsert (buildIndex cands) p.1 p.2 := by
      simp [buildIndex, List.foldl_append]
    have hcands : ∀ t : ℤ, candsAt t (cands ++ [p]) =
        candsAt t cands ++ (if p.1 = t then [p.2] else []) := by
      intro t
      by_cases hp : p.1 = t <;> simp [candsAt, List.filter_append, hp]
    refine ⟨?_, ?_⟩
    · rw [hbuild]
      exact upsert_nodup _ _ _ ihnodup
    · rw [hbuild, hcands s]
      by_cases hp : p.1 = s
      · subst hp
        rw [findTok_upsert_eq]
        cases hfind : findTok p.1 (buildIndex cands) with
        | none =>
          rw [hfind] at ihmatch
          simp only [ihmatch, if_pos rfl, List.nil_append]
          exact ⟨⟨[], [], by simp, by simp⟩, by simp⟩
        | some cur =>
          rw [hfind] at ihmatch
          obtain ⟨⟨pre, suf, hdecomp, hpre⟩, hmin⟩ := ihmatch
          by_cases hlt : p.2.2 < cur.2
          · simp only [hlt, if_true, if_pos rfl]
            refine ⟨⟨candsAt p.1 cands, [], by simp, ?_⟩, ?_⟩
            · intro x hx
              exact lt_of_lt_of_le hlt (hmin x hx)
            · intro x hx
              rcases List.mem_append.mp hx with hx | hx
              · exact le_of_lt (lt_of_lt_of_le hlt (hmin x hx))
              · simp only [List.mem_singleton] at hx
                simp [hx]
          · simp only [hlt, if_false, if_pos rfl]
            refine ⟨⟨pre, suf ++ [p.2], by simp [hdecomp], hpre⟩, ?_⟩
            intro x hx
            rcases List.mem_append.mp hx with hx | hx
            · exact hmin x hx
            · have hx2 : x = p.2 := by simpa using hx
              subst hx2
              exact le_of_not_lt hlt
      · rw [findTok_upsert_ne _ _ _ _ hp]
        simp only [hp, if_false, List.append_nil]
        exact ihmatch

/-- A min-fold over a list is bounded by its initial accumulator. -/
theorem foldl_min_le_init (l : List ℚ) (a : ℚ) : l.foldl min a ≤ a := by
  induction l generalizing a with
  | nil => exact le_refl a
  | cons x rest ih =>
    exact le_trans (ih (min a x)) (min_le_left a x)

/-- A min-fold over a list is bounded by every member. -/
theorem foldl_min_le_mem (l : List ℚ) (a x : ℚ) (hx : x ∈ l) : l.foldl min a ≤ x := by
  induction l generalizing a with
  | nil => cases hx
  | cons y rest ih =>
    rcases List.mem_cons.mp hx with h | h
    · subst h
      exact le_trans (foldl_min_le_init rest (min a x)) (min_le_right a x)
    · exact ih (min a y) h

/-- A max-fold over a list dominates its initial accumulator. -/
theorem le_foldl_max_init (l : List ℚ) (a : ℚ) : a ≤ l.foldl max a := by
  induction l generalizing a with
  | nil => exact le_refl a
  | cons x rest ih =>
    exact le_trans (le_max_left a x) (ih (max a x))

/-- A max-fold over a list dominates every member. -/
theorem le_foldl_max_mem (l : List ℚ) (a x : ℚ) (hx : x ∈ l) : x ≤ l.foldl max a := by
  induction l generalizing a with
  | nil => cases hx
  | cons y rest ih =>
    rcases List.mem_cons.mp hx with h | h
    · subst h
      exact le_trans (le_max_right a x) (le_foldl_max_init rest (max a x))
    · exact ih (max a y) h

/-- Every candidate cost is at most `maxCost`. -/
theorem le_maxCost (costs : List ℚ) (x : ℚ) (hx : x ∈ costs) : x ≤ maxCost costs := by
  cases costs with
  | nil => cases hx
  | cons c rest =>
    rcases List.mem_cons.mp hx with h | h
    · subst h
      exact le_foldl_max_init rest x
    · exact le_foldl_max_mem rest c x h

/-- Splitting off the head of an admitted-count. -/
theorem admitted_cons (a c : ℚ) (l : List ℚ) :
    admitted (a :: l) c = admitted l c + if a ≤ c then 1 else 0 := by
  simp only [admitted, List.countP_cons, decide_eq_true_eq]

/-- In a `≤`-sorted list, the element at index `m` admits at least the
first `m + 1` elements. -/
theorem sorted_count_ge (s : List ℚ) (hs : s.Sorted (· ≤ ·)) (m : ℕ)
    (hm : m < s.length) : m + 1 ≤ admitted s (s.getD m 0) := by
  induction s generalizing m with
  | nil => simp at hm
  | cons a rest ih =>
    obtain ⟨ha, hrest⟩ := List.sorted_cons.mp hs
    cases m with
    | zero =>
      rw [List.getD_cons_zero, admitted_cons, if_pos (le_refl a)]
      omega
    | succ k =>
      have hk : k < rest.length := by simpa using hm
      have hv : (a :: rest).getD (k + 1) 0 = rest.getD k 0 := rfl
      rw [hv]
      have hmem : rest.getD k 0 ∈ rest := by
        rw [List.getD_eq_getElem rest 0 hk]
        exact List.getElem_mem hk
      have hav : a ≤ rest.getD k 0 := ha _ hmem
      have hrec := ih hrest k hk
      rw [admitted_cons, if_pos hav]
      omega

/-- In a strictly sorted list, the element at index `m` admits at most the
first `m + 1` elements. -/
theorem sorted_count_le (s : List ℚ) (hs : s.Sorted (· < ·)) (m : ℕ)
    (hm : m < s.length) : admitted s (s.getD m 0) ≤ m + 1 := by
  induction s generalizing m with
  | nil => simp at hm
  | cons a rest ih =>
    obtain ⟨ha, hrest⟩ := List.sorted_cons.mp hs
    cases m with
    | zero =>
      have hcz : admitted rest a = 0 := by
        rw [admitted, List.countP_eq_zero]
        intro x hx
        simpa using not_le_of_lt (ha x hx)
      rw [List.getD_cons_zero, admitted_cons, if_pos (le_refl a), hcz]
    | succ k =>
      have hk : k < rest.length := by simpa using hm
      have hv : (a :: rest).getD (k + 1) 0 = rest.getD k 0 := rfl
      rw [hv]
      have hrec := ih hrest k hk
      rw [admitted_cons]
      by_cases hav : a ≤ rest.getD k 0
      · rw [if_pos hav]
        omega
      · rw [if_neg hav]
        omega

/-- Once the relaxation loop has fuel to reach the costliest candidate,
it stops with either `minActive` admitted or every candidate admitted. -/
theorem relaxCutoff_stop (costs : List ℚ) (minA : ℕ) (δ : ℚ) (fuel : ℕ) (c : ℚ)
    (hend : maxCost costs ≤ c + fuel * δ) :
    minA ≤ admitted costs (relaxCutoff costs minA δ fuel c)
    ∨ admitted costs (relaxCutoff costs minA δ fuel c) = costs.length := by
  induction fuel generalizing c with
  | zero =>
    right
    simp only [relaxCutoff]
    have : ∀ x ∈ costs, x ≤ c := by
      intro x hx
      have := le_maxCost costs x hx
      push_cast at hend
      linarith
    rw [admitted, List.countP_eq_length.mpr]
    intro x hx
    simpa using this x hx
  | succ n ih =>
    simp only [relaxCutoff]
    by_cases hstop : minA ≤ admitted costs c ∨ admitted costs c = costs.length
    · rw [if_pos hstop]
      exact hstop
    · rw [if_neg hstop]
      apply ih
      push_cast at hend ⊢
      linarith

/-- The fuel bound `relaxFuel` supplies enough steps to reach the costliest candidate. -/
theorem relaxFuel_spec (costs : List ℚ) (c0 δ : ℚ) (hδ : 0 < δ) :
    maxCost costs ≤ c0 + (relaxFuel costs c0 δ) * δ := by
  set q : ℚ := (maxCost costs - c0) / δ with hq
  have h1 : q ≤ (⌈q⌉ : ℚ) := Int.le_ceil q
  have h2 : ((⌈q⌉.toNat : ℤ) : ℚ) ≥ ((⌈q⌉ : ℤ) : ℚ) := by
    exact_mod_cast Int.self_le_toNat ⌈q⌉
  have h3 : ((relaxFuel costs c0 δ : ℕ) : ℚ) ≥ q := by
    rw [relaxFuel]
    push_cast at h2 ⊢
    rw [← hq]
    linarith
  have h4 : q * δ = maxCost costs - c0 := by
    rw [hq, div_mul_cancel₀]
    exact ne_of_gt hδ
  have h5 : ((relaxFuel costs c0 δ : ℕ) : ℚ) * δ ≥ q * δ :=
    mul_le_mul_of_nonneg_right h3 (le_of_lt hδ)
  linarith

/-- C1 counterexample: on three equal-cost candidates with
`maxActive = 2`, `minActive = 1`, the cutoff engine's selection keeps the
cutoff at the tied boundary cost, so all three candidates have cost ≤
cutoff even though the total candidate count (3) is not below `minActive`:
the admitted count lies outside `[minActive, maxActive]`. -/
theorem cutoff_bounds_counterexample :
    cex1cfg.min_active ≤ cex1costs.length
    ∧ ¬ admitted cex1costs (getCutoff cex1costs cex1cfg) ≤ cex1cfg.max_active := by
  have h1 : minCost cex1costs = 0 := by
    norm_num [minCost, cex1costs]
  have h2 : admitted cex1costs (minCost cex1costs + cex1cfg.beam) = 3 := by
    rw [h1]
    norm_num [admitted, cex1costs, cex1cfg, List.countP_cons, List.countP_nil]
  have h3 : List.insertionSort (· ≤ ·) cex1costs = cex1costs := by
    norm_num [cex1costs, List.insertionSort, List.orderedInsert]
  have h4 : getCutoff cex1costs cex1cfg = 0 := by
    unfold getCutoff
    have hc : cex1cfg.max_active < admitted cex1costs (minCost cex1costs + cex1cfg.beam) := by
      rw [h2]
      norm_num [cex1cfg]
    rw [if_pos hc, h3]
    rfl
  have h5 : admitted cex1costs 0 = 3 := by
    norm_num [admitted, cex1costs, List.countP_cons, List.countP_nil]
  constructor
  · norm_num [cex1cfg, cex1costs]
  · rw [h4, h5]
    norm_num [cex1cfg]

/-- C1 (amended): after `GetCutoff` runs, at least
`min(minActive, candidateCount)` candidates have cost ≤ cutoff (so when
fewer than `minActive` candidates exist, all are admitted); and when the
candidate costs are pairwise distinct and the plain beam cutoff already
admits at least `min(minActive, candidateCount)` candidates (no `beamDelta`
relaxation is needed), at most `maxActive` candidates have cost ≤ cutoff.
With tied boundary costs, or when the relaxation loop must widen the beam,
the admitted count can exceed `maxActive`. -/
theorem getCutoff_bounds (costs : List ℚ) (cfg : CutCfg)
    (hδ : 0 < cfg.beam_delta) (hma : 1 ≤ cfg.max_active)
    (hmm : cfg.min_active ≤ cfg.max_active) :
    min cfg.min_active costs.length ≤ admitted costs (getCutoff costs cfg)
    ∧ (costs.Pairwise (· ≠ ·) →
       min cfg.min_active costs.length ≤ admitted costs (minCost costs + cfg.beam) →
       admitted costs (getCutoff costs cfg) ≤ cfg.max_active) := by
  have hperm := List.perm_insertionSort (· ≤ ·) costs
  have hsort := List.sorted_insertionSort (· ≤ ·) costs
  have hlen : (List.insertionSort (· ≤ ·) costs).length = costs.length := hperm.length_eq
  have hcount : ∀ c : ℚ, admitted costs c = admitted (List.insertionSort (· ≤ ·) costs) c := by
    intro c
    exact (hperm.countP_eq _).symm
  have hbeamle : admitted costs (minCost costs + cfg.beam) ≤ costs.length :=
    List.countP_le_length _
  constructor
  · unfold getCutoff
    by_cases htight : cfg.max_active < admitted costs (minCost costs + cfg.beam)
    · rw [if_pos htight]
      have hmlt : cfg.max_active - 1 < (List.insertionSort (· ≤ ·) costs).length := by
        omega
      have hsel := sorted_count_ge _ hsort (cfg.max_active - 1) hmlt
      rw [hcount]
      omega
    · rw [if_neg htight]
      by_cases hrelax : admitted costs (minCost costs + cfg.beam) < cfg.min_active
          ∧ admitted costs (minCost costs + cfg.beam) < costs.length
      · rw [if_pos hrelax]
        have hfuel := relaxFuel_spec costs (minCost costs + cfg.beam) cfg.beam_delta hδ
        have hstop := relaxCutoff_stop costs cfg.min_active cfg.beam_delta _ _ hfuel
        rcases hstop with h | h
        · omega
        · omega
      · rw [if_neg hrelax]
        rw [not_and_or] at hrelax
        omega
  · intro hdist hlb
    unfold getCutoff
    by_cases htight : cfg.max_active < admitted costs (minCost costs + cfg.beam)
    · rw [if_pos htight]
      have hmlt : cfg.max_active - 1 < (List.insertionSort (· ≤ ·) costs).length := by
        omega
      have hdist' : (List.insertionSort (· ≤ ·) costs).Pairwise (· ≠ ·) :=
        (hperm.pairwise_iff (fun h => Ne.symm h)).mpr hdist
      have hslt : (List.insertionSort (· ≤ ·) costs).Sorted (· < ·) :=
        (hsort.and hdist').imp (fun h => lt_of_le_of_ne h.1 h.2)
      have hsel := sorted_count_le _ hslt (cfg.max_active - 1) hmlt
      rw [hcount]
      omega
    · rw [if_neg htight]
      have hnorelax : ¬ (admitted costs (minCost costs + cfg.beam) < cfg.min_active
          ∧ admitted costs (minCost costs + cfg.beam) < costs.length) := by
        rintro ⟨h1, h2⟩
        omega
      rw [if_neg hnorelax]
      omega

/-- Witness for `getCutoff_bounds` on five distinct candidate costs with
`maxActive = minActive = 1` (spec scenario C): exactly one candidate is
admitted. -/
theorem getCutoff_bounds_witness :
    ((0 : ℚ) < (1/2 : ℚ) ∧ 1 ≤ 1 ∧ 1 ≤ 1)
    ∧ (min 1 ([1, 6/5, 3/2, 9/5, 2] : List ℚ).length
        ≤ admitted [1, 6/5, 3/2, 9/5, 2] (getCutoff [1, 6/5, 3/2, 9/5, 2] ⟨16, 1, 1, 1/2⟩)
      ∧ (([1, 6/5, 3/2, 9/5, 2] : List ℚ).Pairwise (· ≠ ·) →
         min 1 ([1, 6/5, 3/2, 9/5, 2] : List ℚ).length
           ≤ admitted [1, 6/5, 3/2, 9/5, 2] (minCost [1, 6/5, 3/2, 9/5, 2] + (16 : ℚ)) →
         admitted [1, 6/5, 3/2, 9/5, 2] (getCutoff [1, 6/5, 3/2, 9/5, 2] ⟨16, 1, 1, 1/2⟩) ≤ 1)) :=
  ⟨⟨by norm_num, le_refl 1, le_refl 1⟩,
    getCutoff_bounds [1, 6/5, 3/2, 9/5, 2] ⟨16, 1, 1, 1/2⟩ (by norm_num) (le_refl 1) (le_refl 1)⟩

/-- Walking labels backward and reversing agrees with collecting them in
forward time order. -/
theorem backLabels_reverse (t : Token) : t.backLabels.reverse = t.forwardLabels := by
  induction t with
  | root a ac => rfl
  | step a ac p ih => simp [Token.backLabels, Token.forwardLabels, ih]

/-- C7: `getBestPath` fails exactly when the active generation is empty;
otherwise it returns the forward-order output-label sequence of an active
hypothesis that minimizes cumulative cost plus final cost (over final
states) when `useFinalProbs` holds and a final state is active, and
minimizes plain cumulative cost over all active hypotheses otherwise. -/
theorem getBestPath_spec (finalCost : ℤ → Option ℚ) (active : List (ℤ × Token))
    (useFinal : Bool) :
    (getBestPath finalCost active useFinal = none ↔ active = [])
    ∧ (match getBestPath finalCost active useFinal with
       | none => True
       | some res =>
         ∃ s t, (s, t) ∈ active ∧ res = t.forwardLabels
           ∧ (if useFinal && reachedFinal finalCost active then
                ∃ f, finalCost s = some f
                  ∧ ∀ s' t' f', (s', t') ∈ active → finalCost s' = some f' →
                      t.cost + f ≤ t'.cost + f'
              else ∀ s' t', (s', t') ∈ active → t.cost ≤ t'.cost)) := by
  cases hfin : useFinal && reachedFinal finalCost active with
  | false =>
    have hgb : getBestPath finalCost active useFinal =
        ((active.map (fun p => (p.2, p.2.cost))).argmin (fun tc => tc.2)).map
          (fun tc => tc.1.backLabels.reverse) := by
      unfold getBestPath
      rw [hfin]
      simp only [Bool.false_eq_true, if_false]
    cases hargmin : (active.map (fun p => (p.2, p.2.cost))).argmin (fun tc => tc.2) with
    | none =>
      have hempty : active.map (fun p => (p.2, p.2.cost)) = [] := List.argmin_eq_none.mp hargmin
      have hact : active = [] := List.map_eq_nil_iff.mp hempty
      rw [hgb, hargmin]
      exact ⟨by simp [hact], trivial⟩
    | some tc =>
      rw [hgb, hargmin]
      have hmem := List.argmin_mem hargmin
      obtain ⟨⟨s, t⟩, hst, htc⟩ := List.mem_map.mp hmem
      constructor
      · simp only [Option.map_some']
        constructor
        · intro h
          cases h
        · intro h
          subst h
          simp at hst
      · simp only [Option.map_some']
        refine ⟨s, t, hst, ?_, ?_⟩
        · rw [← htc, backLabels_reverse]
        · simp only [Bool.false_eq_true, if_false]
          intro s' t' hmem'
          have hc' : (t', t'.cost) ∈ active.map (fun p => (p.2, p.2.cost)) :=
            List.mem_map.mpr ⟨(s', t'), hmem', rfl⟩
          have hle := List.le_of_mem_argmin hc' hargmin
          rw [← htc] at hle
          simpa using hle
  | true =>
    obtain ⟨hu, hrf⟩ := Bool.and_eq_true_iff.mp hfin
    obtain ⟨p, hp, hps⟩ := List.any_eq_true.mp hrf
    obtain ⟨f0, hf0⟩ := Option.isSome_iff_exists.mp hps
    have hcand : (p.2, p.2.cost + f0) ∈
        active.filterMap (fun q => (finalCost q.1).map (fun f => (q.2, q.2.cost + f))) := by
      apply List.mem_filterMap.mpr
      exact ⟨p, hp, by rw [hf0]; rfl⟩
    have hgb : getBestPath finalCost active useFinal =
        ((active.filterMap (fun q => (finalCost q.1).map
            (fun f => (q.2, q.2.cost + f)))).argmin (fun tc => tc.2)).map
          (fun tc => tc.1.backLabels.reverse) := by
      unfold getBestPath
      rw [hfin]
      simp only [if_true]
    cases hargmin : (active.filterMap (fun q => (finalCost q.1).map
        (fun f => (q.2, q.2.cost + f)))).argmin (fun tc => tc.2) with
    | none =>
      have hempty := List.argmin_eq_none.mp hargmin
      rw [hempty] at hcand
      cases hcand
    | some tc =>
      rw [hgb, hargmin]
      have hmem := List.argmin_mem hargmin
      obtain ⟨q, hq, hqe⟩ := List.mem_filterMap.mp hmem
      obtain ⟨f, hf, hfe⟩ := Option.map_eq_some'.mp hqe
      constructor
      · simp only [Option.map_some']
        constructor
        · intro h
          cases h
        · intro h
          subst h
          cases hq
      · simp only [Option.map_some']
        refine ⟨q.1, q.2, hq, ?_, ?_⟩
        · rw [show tc.1 = q.2 from by rw [← hfe], backLabels_reverse]
        · simp only [if_true]
          refine ⟨f, hf, ?_⟩
          intro s' t' f' hmem' hf'
          have hc' : (t', t'.cost + f') ∈
              active.filterMap (fun r => (finalCost r.1).map (fun g => (r.2, r.2.cost + g))) := by
            apply List.mem_filterMap.mpr
            exact ⟨(s', t'), hmem', by rw [hf']; rfl⟩
          have hle := List.le_of_mem_argmin hc' hargmin
          have htc2 : tc.2 = q.2.cost + f := by rw [← hfe]
          rw [htc2] at hle
          exact hle

/-- A stalled decoder state (no frame ready) is a fixpoint of
`advanceDecoding`. -/
theorem advanceDecoding_stalled {α β : Type} (step : α → β → α) (frames : List β)
    (st : α × ℕ) (k : ℕ) (h : frames[st.2]? = none) :
    advanceDecoding step frames k st = st := by
  cases k with
  | zero => rfl
  | succ n =>
    unfold advanceDecoding
    rw [h]

/-- One unfolding of `advanceDecoding` when a frame is ready. -/
theorem advanceDecoding_succ_some {α β : Type} (step : α → β → α) (frames : List β)
    (st : α × ℕ) (fr : β) (k : ℕ) (h : frames[st.2]? = some fr) :
    advanceDecoding step frames (k + 1) st
      = advanceDecoding step frames k (step st.1 fr, st.2 + 1) := by
  conv_lhs => unfold advanceDecoding
  rw [h]

/-- Frame budgets compose: advancing by `a + b` frames equals advancing by
`a` then by `b`. -/
theorem advanceDecoding_add {α β : Type} (step : α → β → α) (frames : List β)
    (a b : ℕ) (st : α × ℕ) :
    advanceDecoding step frames (a + b) st
      = advanceDecoding step frames b (advanceDecoding step frames a st) := by
  induction a generalizing st with
  | zero =>
    rw [Nat.zero_add]
    rfl
  | succ n ih =>
    have h1 : n + 1 + b = (n + b) + 1 := by omega
    cases hf : frames[st.2]? with
    | some fr =>
      rw [h1, advanceDecoding_succ_some step frames st fr (n + b) hf,
        advanceDecoding_succ_some step frames st fr n hf, ih]
    | none =>
      rw [advanceDecoding_stalled step frames st (n + 1 + b) hf,
        advanceDecoding_stalled step frames st (n + 1) hf,
        advanceDecoding_stalled step frames st b hf]

/-- Advancing one frame at a time `n` times equals advancing by `n`. -/
theorem advanceByOnes_eq (step : List (ℤ × Token) → (ℤ → ℚ) → List (ℤ × Token))
    (frames : List (ℤ → ℚ)) (n : ℕ) (st : List (ℤ × Token) × ℕ) :
    advanceByOnes step frames n st = advanceDecoding step frames n st := by
  induction n generalizing st with
  | zero => rfl
  | succ k ih =>
    have h0 : advanceByOnes step frames (k + 1) st
        = advanceByOnes step frames k (advanceDecoding step frames 1 st) := rfl
    rw [h0, ih, ← advanceDecoding_add step frames 1 k st, Nat.add_comm]

/-- C8: incremental equivalence — initializing and then advancing one
frame at a time, `N` times over `N` frames, produces exactly the decoder
state (active generation and frame counter) of a single run-to-exhaustion
`Decode` over the same frames, and hence the same best path. -/
theorem incremental_equivalence (step : List (ℤ × Token) → (ℤ → ℚ) → List (ℤ × Token))
    (frames : List (ℤ → ℚ)) (init : List (ℤ × Token))
    (finalCost : ℤ → Option ℚ) (useFinal : Bool) :
    advanceByOnes step frames frames.length (init, 0) = decodeRun step frames init
    ∧ getBestPath finalCost (advanceByOnes step frames frames.length (init, 0)).1 useFinal
      = getBestPath finalCost (decodeRun step frames init).1 useFinal := by
  have h := advanceByOnes_eq step frames frames.length (init, 0)
  exact ⟨h, by rw [h]; rfl⟩

/-- The grid is closed under addition. -/
theorem isGrid_add (D : ℕ) (a b : ℚ) (ha : IsGrid D a) (hb : IsGrid D b) :
    IsGrid D (a + b) := by
  obtain ⟨k, hk⟩ := ha
  obtain ⟨j, hj⟩ := hb
  refine ⟨k + j, ?_⟩
  push_cast
  rw [mul_add, hk, hj]

/-- A rational whose denominator divides `D` lies on the `1 / D` grid. -/
theorem isGrid_of_den_dvd (D : ℕ) (q : ℚ) (h : q.den ∣ D) : IsGrid D q := by
  obtain ⟨j, hj⟩ := h
  refine ⟨q.num * j, ?_⟩
  have hD : ((D : ℕ) : ℚ) = (q.den : ℚ) * (j : ℚ) := by
    rw [hj]
    push_cast
    ring
  calc (D : ℚ) * q = (j : ℚ) * (q * (q.den : ℚ)) := by rw [hD]; ring
    _ = (j : ℚ) * (q.num : ℚ) := by rw [Rat.mul_den_eq_num]
    _ = ((q.num * j : ℤ) : ℚ) := by push_cast; ring

/-- An admissible stored cost ranks strictly below an absent entry. -/
theorem rank_some_lt_none (D : ℕ) (L cutoff c : ℚ) (hD : 0 < D)
    (hL : L ≤ c) (hc : c ≤ cutoff) (hg : IsGrid D c) :
    rank D L cutoff (some c) < rank D L cutoff none := by
  obtain ⟨k, hk⟩ := hg
  have hnum : ((D : ℚ) * c).num = k := by rw [hk]; exact Rat.num_intCast k
  have hDq : (0 : ℚ) ≤ (D : ℚ) := by positivity
  have h1 : (D : ℚ) * L ≤ (k : ℚ) := by
    rw [← hk]
    exact mul_le_mul_of_nonneg_left hL hDq
  have h2 : (k : ℚ) ≤ (D : ℚ) * cutoff := by
    rw [← hk]
    exact mul_le_mul_of_nonneg_left hc hDq
  have hf : ⌊(D : ℚ) * L⌋ ≤ k := by
    calc ⌊(D : ℚ) * L⌋ ≤ ⌊(k : ℚ)⌋ := Int.floor_le_floor h1
      _ = k := Int.floor_intCast k
  have hcl : k ≤ ⌈(D : ℚ) * cutoff⌉ := by
    calc k = ⌈(k : ℚ)⌉ := (Int.ceil_intCast k).symm
      _ ≤ ⌈(D : ℚ) * cutoff⌉ := Int.ceil_le_ceil h2
  simp only [rank, hnum]
  omega

/-- A strict improvement of an admissible stored cost strictly lowers its
rank. -/
theorem rank_lt_rank (D : ℕ) (L cutoff c c' : ℚ) (hD : 0 < D)
    (hL : L ≤ c') (hlt : c' < c) (hg : IsGrid D c) (hg' : IsGrid D c') :
    rank D L cutoff (some c') < rank D L cutoff (some c) := by
  obtain ⟨k, hk⟩ := hg
  obtain ⟨k', hk'⟩ := hg'
  have hnum : ((D : ℚ) * c).num = k := by rw [hk]; exact Rat.num_intCast k
  have hnum' : ((D : ℚ) * c').num = k' := by rw [hk']; exact Rat.num_intCast k'
  have hDq : (0 : ℚ) < (D : ℚ) := by exact_mod_cast hD
  have h1 : (k' : ℚ) < (k : ℚ) := by
    rw [← hk, ← hk']
    exact mul_lt_mul_of_pos_left hlt hDq
  have h2 : k' < k := by exact_mod_cast h1
  have h3 : (D : ℚ) * L ≤ (k' : ℚ) := by
    rw [← hk']
    exact mul_le_mul_of_nonneg_left hL (le_of_lt hDq)
  have hf : ⌊(D : ℚ) * L⌋ ≤ k' := by
    calc ⌊(D : ℚ) * L⌋ ≤ ⌊(k' : ℚ)⌋ := Int.floor_le_floor h3
      _ = k' := Int.floor_intCast k'
  simp only [rank, hnum, hnum']
  omega

/-- Relaxing one well-formed arc preserves the invariant and either leaves
the state untouched or strictly decreases the sum of ranks. -/
theorem relaxArc_cases (g : NEGraph) (D : ℕ) (L : ℚ) (st : NEState) (a : ℕ × ℕ × ℚ)
    (hD : 0 < D) (hInv : Inv g D L st) (ha : arcOK g D a) :
    Inv g D L (relaxArc g.cutoff st a)
    ∧ (relaxArc g.cutoff st a = st
       ∨ sumRank g D L (relaxArc g.cutoff st a) < sumRank g D L st) := by
  obtain ⟨hcosts, hnd, hqm⟩ := hInv
  obtain ⟨hsrc, hdst, hw, hgw⟩ := ha
  unfold relaxArc
  cases hs : st.cost a.1 with
  | none => exact ⟨⟨hcosts, hnd, hqm⟩, Or.inl rfl⟩
  | some cs =>
    dsimp only
    obtain ⟨hLs, hcs, hgs⟩ := hcosts a.1 hsrc cs hs
    by_cases hgrd : (decide (cs + a.2.2 ≤ g.cutoff) &&
        (match st.cost a.2.1 with
         | none => true
         | some ct => decide (cs + a.2.2 < ct))) = true
    · rw [if_pos hgrd]
      obtain ⟨hcut, himp⟩ := Bool.and_eq_true_iff.mp hgrd
      have hcut' : cs + a.2.2 ≤ g.cutoff := of_decide_eq_true hcut
      have hL' : L ≤ cs + a.2.2 := le_trans hLs (by linarith)
      have hg' : IsGrid D (cs + a.2.2) := isGrid_add D cs a.2.2 hgs hgw
      have hrank : rank D L g.cutoff (some (cs + a.2.2))
          < rank D L g.cutoff (st.cost a.2.1) := by
        cases ht : st.cost a.2.1 with
        | none => exact rank_some_lt_none D L g.cutoff _ hD hL' hcut' hg'
        | some ct =>
          have hlt : cs + a.2.2 < ct := of_decide_eq_true (by rw [ht] at himp; exact himp)
          obtain ⟨hLt, hct, hgt⟩ := hcosts a.2.1 hdst ct ht
          exact rank_lt_rank D L g.cutoff ct _ hD hL' hlt hgt hg'
      constructor
      · refine ⟨?_, ?_, ?_⟩
        · intro v hv c hc
          by_cases hvt : v = a.2.1
          · simp only [hvt, if_pos rfl] at hc
            obtain rfl : cs + a.2.2 = c := Option.some.inj hc
            exact ⟨hL', hcut', hg'⟩
          · simp only [hvt, if_false] at hc
            exact hcosts v hv c hc
        · by_cases hq : a.2.1 ∈ st.queue
          · simpa [hq] using hnd
          · simp only [hq, if_false]
            exact List.nodup_cons.mpr ⟨hq, hnd⟩
        · intro x hx
          by_cases hq : a.2.1 ∈ st.queue
          · rw [if_pos hq] at hx
            exact hqm x hx
          · rw [if_neg hq] at hx
            rcases List.mem_cons.mp hx with h | h
            · rw [h]
              exact hdst
            · exact hqm x h
      · right
        apply Finset.sum_lt_sum
        · intro i _
          by_cases hit : i = a.2.1
          · rw [hit]
            simp only [if_pos rfl]
            exact le_of_lt hrank
          · simp only [hit, if_false]
            exact le_refl _
        · refine ⟨a.2.1, Finset.mem_range.mpr hdst, ?_⟩
          simp only [if_pos rfl]
          exact hrank
    · rw [if_neg hgrd]
      exact ⟨⟨hcosts, hnd, hqm⟩, Or.inl rfl⟩

/-- A duplicate-free list of numbers below `n` has at most `n` members. -/
theorem queue_len_le (l : List ℕ) (n : ℕ) (hnd : l.Nodup) (hlt : ∀ x ∈ l, x < n) :
    l.length ≤ n := by
  have h1 : l.toFinset ⊆ Finset.range n := by
    intro x hx
    rw [List.mem_toFinset] at hx
    exact Finset.mem_range.mpr (hlt x hx)
  have h2 := Finset.card_le_card h1
  rwa [List.toFinset_card_of_nodup hnd, Finset.card_range] at h2

/-- Folding well-formed arc relaxations preserves the invariant and either
leaves the state untouched or strictly decreases the sum of ranks. -/
theorem foldl_relax (g : NEGraph) (D : ℕ) (L : ℚ) (hD : 0 < D) :
    ∀ arcs : List (ℕ × ℕ × ℚ), (∀ a ∈ arcs, arcOK g D a) → ∀ st, Inv g D L st →
      Inv g D L (arcs.foldl (relaxArc g.cutoff) st)
      ∧ (arcs.foldl (relaxArc g.cutoff) st = st
         ∨ sumRank g D L (arcs.foldl (relaxArc g.cutoff) st) < sumRank g D L st) := by
  intro arcs
  induction arcs with
  | nil =>
    intro _ st h
    exact ⟨h, Or.inl rfl⟩
  | cons a arcs ih =>
    intro harcs st h
    have ha := harcs a (List.mem_cons_self a arcs)
    have harcs' : ∀ b ∈ arcs, arcOK g D b := fun b hb => harcs b (List.mem_cons_of_mem a hb)
    obtain ⟨hI1, hc1⟩ := relaxArc_cases g D L st a hD h ha
    obtain ⟨hI2, hc2⟩ := ih harcs' (relaxArc g.cutoff st a) hI1
    rw [List.foldl_cons]
    refine ⟨hI2, ?_⟩
    rcases hc1 with he1 | hl1
    · rw [he1] at hc2 ⊢
      exact hc2
    · rcases hc2 with he2 | hl2
      · rw [he2]
        exact Or.inr hl1
      · exact Or.inr (lt_trans hl2 hl1)

/-- One work-queue iteration on a nonempty queue preserves the invariant
and strictly decreases the termination measure. -/
theorem neStep_decreases (g : NEGraph) (D : ℕ) (L : ℚ) (st : NEState)
    (hD : 0 < D) (harcs : ∀ a ∈ g.arcs, arcOK g D a)
    (hInv : Inv g D L st) (s : ℕ) (rest : List ℕ) (hq : st.queue = s :: rest) :
    Inv g D L (neStep g st) ∧ neM g D L (neStep g st) < neM g D L st := by
  obtain ⟨hcosts, hnd, hqm⟩ := hInv
  have hstep : neStep g st = (g.arcs.filter (fun a => decide (a.1 = s))).foldl
      (relaxArc g.cutoff) { st with queue := rest } := by
    unfold neStep
    rw [hq]
  have hnd' : rest.Nodup := by
    rw [hq] at hnd
    exact (List.nodup_cons.mp hnd).2
  have hqm' : ∀ x ∈ rest, x < g.numStates := by
    intro x hx
    exact hqm x (by rw [hq]; exact List.mem_cons_of_mem _ hx)
  have hInv1 : Inv g D L { st with queue := rest } := ⟨hcosts, hnd', hqm'⟩
  have hfa : ∀ a ∈ g.arcs.filter (fun a => decide (a.1 = s)), arcOK g D a := by
    intro a ha
    exact harcs a (List.mem_of_mem_filter ha)
  obtain ⟨hInvF, hca⟩ := foldl_relax g D L hD _ hfa _ hInv1
  rw [hstep]
  refine ⟨hInvF, ?_⟩
  have hql : rest.length < st.queue.length := by
    rw [hq]
    simp
  rcases hca with heq | hlt
  · rw [heq]
    calc neM g D L { st with queue := rest }
        = sumRank g D L st * (g.numStates + 1) + rest.length := rfl
      _ < sumRank g D L st * (g.numStates + 1) + st.queue.length :=
          Nat.add_lt_add_left hql _
      _ = neM g D L st := rfl
  · have hsum : sumRank g D L { st with queue := rest } = sumRank g D L st := rfl
    rw [hsum] at hlt
    have hlenF := queue_len_le _ g.numStates hInvF.2.1 hInvF.2.2
    have hs1 : sumRank g D L ((g.arcs.filter (fun a => decide (a.1 = s))).foldl
        (relaxArc g.cutoff) { st with queue := rest }) + 1 ≤ sumRank g D L st := hlt
    calc neM g D L ((g.arcs.filter (fun a => decide (a.1 = s))).foldl
          (relaxArc g.cutoff) { st with queue := rest })
        ≤ sumRank g D L ((g.arcs.filter (fun a => decide (a.1 = s))).foldl
            (relaxArc g.cutoff) { st with queue := rest }) * (g.numStates + 1)
            + g.numStates := Nat.add_le_add_left hlenF _
      _ < (sumRank g D L ((g.arcs.filter (fun a => decide (a.1 = s))).foldl
            (relaxArc g.cutoff) { st with queue := rest }) + 1) * (g.numStates + 1) := by
          rw [Nat.succ_mul]
          exact Nat.add_lt_add_left (Nat.lt_succ_self _) _
      _ ≤ sumRank g D L st * (g.numStates + 1) := Nat.mul_le_mul_right _ hs1
      _ ≤ neM g D L st := Nat.le_add_right _ _

/-- Unfolding one fueled iteration of the work-queue loop on a nonempty
queue. -/
theorem neRun_succ_cons (g : NEGraph) (fuel : ℕ) (st : NEState) (s : ℕ)
    (rest : List ℕ) (hq : st.queue = s :: rest) :
    neRun g (fuel + 1) st = neRun g fuel (neStep g st) := by
  conv_lhs => unfold neRun
  rw [hq]

/-- Strong induction on the termination measure: from any invariant state
some amount of fuel empties the queue. -/
theorem neRun_term_aux (g : NEGraph) (D : ℕ) (L : ℚ) (hD : 0 < D)
    (harcs : ∀ a ∈ g.arcs, arcOK g D a) :
    ∀ m st, neM g D L st ≤ m → Inv g D L st →
      ∃ fuel, (neRun g fuel st).queue = [] := by
  intro m
  induction m with
  | zero =>
    intro st hM _
    cases hq : st.queue with
    | nil => exact ⟨0, hq⟩
    | cons s rest =>
      exfalso
      have h1 : 1 ≤ st.queue.length := by
        rw [hq]
        simp
      have h2 : st.queue.length ≤ neM g D L st := Nat.le_add_left _ _
      omega
  | succ m ih =>
    intro st hM hInv
    cases hq : st.queue with
    | nil => exact ⟨0, hq⟩
    | cons s rest =>
      obtain ⟨hInv', hlt⟩ := neStep_decreases g D L st hD harcs hInv s rest hq
      obtain ⟨fuel, hf⟩ := ih (neStep g st) (by omega) hInv'
      exact ⟨fuel + 1, by rw [neRun_succ_cons g fuel st s rest hq]; exact hf⟩

/-- A product of positive naturals is positive. -/
theorem natProd_pos (l : List ℕ) (h : ∀ x ∈ l, 0 < x) : 0 < l.prod := by
  induction l with
  | nil => simp
  | cons x rest ih =>
    rw [List.prod_cons]
    exact Nat.mul_pos (h x (List.mem_cons_self x rest))
      (ih (fun y hy => h y (List.mem_cons_of_mem x hy)))

/-- The common denominator of the non-emitting pass is positive. -/
theorem denProd_pos (g : NEGraph) (st : NEState) : 0 < denProd g st := by
  unfold denProd
  apply Nat.mul_pos
  · apply natProd_pos
    intro x hx
    obtain ⟨a, _, ha⟩ := List.mem_map.mp hx
    rw [← ha]
    exact Rat.den_pos _
  · apply natProd_pos
    intro x hx
    obtain ⟨v, _, hv⟩ := List.mem_map.mp hx
    rw [← hv]
    cases st.cost v with
    | none => exact Nat.one_pos
    | some c => exact Rat.den_pos _

/-- Every arc weight's denominator divides the common denominator. -/
theorem weight_den_dvd (g : NEGraph) (st : NEState) (a : ℕ × ℕ × ℚ)
    (ha : a ∈ g.arcs) : (a.2.2).den ∣ denProd g st := by
  have hmem : (a.2.2).den ∈ g.arcs.map (fun a => a.2.2.den) :=
    List.mem_map.mpr ⟨a, ha, rfl⟩
  exact Dvd.dvd.mul_right (List.dvd_prod hmem) _

/-- Every initially stored cost's denominator divides the common
denominator. -/
theorem cost_den_dvd (g : NEGraph) (st : NEState) (v : ℕ) (hv : v < g.numStates)
    (c : ℚ) (hc : st.cost v = some c) : c.den ∣ denProd g st := by
  have hmem : c.den ∈ (List.range g.numStates).map (fun v =>
      match st.cost v with
      | some c => c.den
      | none => 1) := by
    apply List.mem_map.mpr
    refine ⟨v, List.mem_range.mpr hv, ?_⟩
    rw [hc]
  exact Dvd.dvd.mul_left (List.dvd_prod hmem) _

/-- The scan result `minCost` is a lower bound of its list. -/
theorem minCost_le_mem (l : List ℚ) (x : ℚ) (hx : x ∈ l) : minCost l ≤ x := by
  cases l with
  | nil => cases hx
  | cons c rest =>
    rcases List.mem_cons.mp hx with h | h
    · subst h
      exact foldl_min_le_init rest x
    · exact foldl_min_le_mem rest c x h

/-- The bound `initLower` bounds every initially stored cost from below. -/
theorem initLower_le (g : NEGraph) (st : NEState) (v : ℕ) (hv : v < g.numStates)
    (c : ℚ) (hc : st.cost v = some c) : initLower g st ≤ c := by
  apply minCost_le_mem
  apply List.mem_filterMap.mpr
  exact ⟨v, List.mem_range.mpr hv, hc⟩

/-- C6: the non-emitting pass terminates on every graph whose frame-free
transition weights are all non-negative — some finite fuel empties the
work queue, for any start state whose stored costs respect the cutoff and
whose queue is duplicate-free and in range.  (Costs are non-decreasing
along frame-free chains and the cutoff bounds the stored costs, so every
strict improvement steps down a finite grid.) -/
theorem processNonemitting_terminates (g : NEGraph) (st : NEState)
    (harcs : ∀ a ∈ g.arcs, a.1 < g.numStates ∧ a.2.1 < g.numStates ∧ 0 ≤ a.2.2)
    (hcost : ∀ v, v < g.numStates → ∀ c, st.cost v = some c → c ≤ g.cutoff)
    (hnd : st.queue.Nodup) (hqm : ∀ x ∈ st.queue, x < g.numStates) :
    ∃ fuel, (neRun g fuel st).queue = [] := by
  have hD : 0 < denProd g st := denProd_pos g st
  have harcs' : ∀ a ∈ g.arcs, arcOK g (denProd g st) a := by
    intro a ha
    obtain ⟨h1, h2, h3⟩ := harcs a ha
    exact ⟨h1, h2, h3, isGrid_of_den_dvd _ _ (weight_den_dvd g st a ha)⟩
  have hInv : Inv g (denProd g st) (initLower g st) st := by
    refine ⟨?_, hnd, hqm⟩
    intro v hv c hc
    exact ⟨initLower_le g st v hv c hc, hcost v hv c hc,
      isGrid_of_den_dvd _ _ (cost_den_dvd g st v hv c hc)⟩
  exact neRun_term_aux g (denProd g st) (initLower g st) hD harcs'
    (neM g (denProd g st) (initLower g st) st) st (le_refl _) hInv

/-- Witness for `processNonemitting_terminates` on a two-state graph with
one zero-weight frame-free arc and one seeded, queued state. -/
theorem processNonemitting_terminates_witness :
    ((∀ a ∈ cg6.arcs, a.1 < cg6.numStates ∧ a.2.1 < cg6.numStates ∧ 0 ≤ a.2.2)
      ∧ (∀ v, v < cg6.numStates → ∀ c, cst6.cost v = some c → c ≤ cg6.cutoff)
      ∧ cst6.queue.Nodup ∧ (∀ x ∈ cst6.queue, x < cg6.numStates))
    ∧ ∃ fuel, (neRun cg6 fuel cst6).queue = [] := by
  have h1 : ∀ a ∈ cg6.arcs, a.1 < cg6.numStates ∧ a.2.1 < cg6.numStates ∧ 0 ≤ a.2.2 := by
    intro a ha
    have : a = (0, 1, 0) := by simpa [cg6] using ha
    rw [this]
    refine ⟨by norm_num [cg6], by norm_num [cg6], by norm_num⟩
  have h2 : ∀ v, v < cg6.numStates → ∀ c, cst6.cost v = some c → c ≤ cg6.cutoff := by
    intro v _ c hc
    by_cases h0 : v = 0
    · rw [h0] at hc
      have hc0 : cst6.cost 0 = some 0 := rfl
      rw [hc0] at hc
      have h := Option.some.inj hc
      rw [← h]
      norm_num [cg6]
    · simp [cst6, h0] at hc
  have h3 : cst6.queue.Nodup := by simp [cst6]
  have h4 : ∀ x ∈ cst6.queue, x < cg6.numStates := by
    intro x hx
    have : x = 0 := by simpa [cst6] using hx
    rw [this]
    norm_num [cg6]
  exact ⟨⟨h1, h2, h3, h4⟩, processNonemitting_terminates cg6 cst6 h1 h2 h3 h4⟩

end XDecoder
